import Mathlib

/-!
Shallow embedding of `src/cancel_scope/__init__.py` (class `CancelScope`).

Modelling conventions:
* Python floats standing for durations/instants are modelled by `ℤ` for
  finite values; `float('inf')` — which really arises inside `timeout()`
  and in the merged `_timeout` field — is modelled by the extra point of
  `FloatVal`.  `Optional[float]` fields become `Option FloatVal`
  (so `None` and `inf` stay distinct, as in the source).
* `time.time()` is an external input; every operation that reads the
  clock takes the current instant `now : ℤ` explicitly.
* The scope tree is the inductive `Scope`: one node's own fields
  (`ScopeData`) plus the ordered `_children` list.  The `_parent` back
  reference is not stored; `_cancel(cs)` only ever compares `cs` with
  `self._parent`, and every call site either passes the direct parent
  (the propagation sweep and `_add_child`) or the scope itself (public
  `cancel()`), so the comparison is modelled by the boolean `fromParent`.
* Exception instances are modelled by `Exc`: the package's default
  `CancelledError`, or a user supplied instance identified by a number.
* The per-node `threading.Lock` serialises each operation; operations
  are modelled as atomic functions on the state.
-/

/-- A Python float value as used by this module: a finite rational or
`float('inf')`.  (`timeout()` returns `inf`, and the merged `_timeout`
field can store it.) -/
inductive FloatVal where
  | fin (q : ℤ)
  | inf
deriving DecidableEq, Repr

namespace FloatVal

/-- `a <= b` on these float values. -/
def le : FloatVal → FloatVal → Bool
  | fin a, fin b => a ≤ b
  | fin _, inf => true
  | inf, fin _ => false
  | inf, inf => true

/-- `a < b` on these float values. -/
def lt : FloatVal → FloatVal → Bool
  | fin a, fin b => a < b
  | fin _, inf => true
  | inf, _ => false

/-- Python `min(a, b)` (returns the first argument on ties). -/
def minv (a b : FloatVal) : FloatVal := if a.le b then a else b

/-- Adding a finite instant to a duration (`self._entered + self._timeout`). -/
def addQ (e : ℤ) : FloatVal → FloatVal
  | fin b => fin (e + b)
  | inf => inf

/-- Subtracting a finite instant (`self._deadline - time.time()`). -/
def subQ : FloatVal → ℤ → FloatVal
  | fin a, b => fin (a - b)
  | inf, _ => inf

end FloatVal

/-- An exception raised by `check()`: the module's default `CancelledError`
(used when `_exc is None`), or the user-configured instance `_exc`,
identified by a number. -/
inductive Exc where
  | cancelledError
  | custom (k : Nat)
deriving DecidableEq, Repr

/-- The per-object fields of one `CancelScope`, except `_children`
(kept in `Scope`) and `_parent`/`_lock` (see the header comment).
`token` records whether `_token` currently holds a restore token from
`_current_cancel_scope.set(self)`. -/
structure ScopeData where
  label : Nat
  timeout : Option FloatVal
  shield : Bool
  exc : Option Nat
  entered : Option ℤ
  deadline : Option FloatVal
  token : Bool
  cancelled : Bool
  onEnter : Bool
  onExit : Bool
deriving DecidableEq, Repr

/-- A `CancelScope` object together with the subtree of its registered
children (`_children`, in registration order). -/
inductive Scope where
  | mk (data : ScopeData) (children : List Scope)

/-- Own fields of the root object of a subtree. -/
def Scope.data : Scope → ScopeData
  | .mk d _ => d

/-- The `_children` list of the root object of a subtree. -/
def Scope.children : Scope → List Scope
  | .mk _ ch => ch

/-- `CancelScope.__init__(timeout, shield, exc, on_enter, on_exit)`:
a fresh, unentered, uncancelled, childless scope.  `label` is a ghost
identifier used only to report traversal orders. -/
def CancelScope.new (label : Nat) (timeout : Option FloatVal) (shield : Bool)
    (exc : Option Nat) (onEnter : Bool) (onExit : Bool) : Scope :=
  .mk { label := label, timeout := timeout, shield := shield, exc := exc,
        entered := none, deadline := none, token := false, cancelled := false,
        onEnter := onEnter, onExit := onExit } []

/-- `CancelScope.timeout()` evaluated when the wall clock reads `now`:

    with self._lock:
      if self._cancelled: return 0
    if self._timeout is None: return inf
    if self._entered is None: return self._timeout
    remsecs = self._deadline - time.time()
    return 0 if remsecs <= 0 else remsecs

The source reads `self._deadline` unguarded on the last path; every state
reachable through the public surface with `_entered` and `_timeout` set
also has `_deadline` set (established at entry and never cleared), which
is the `ScopeData.wfTimeB` invariant carried by the theorems, so the
`getD` default below is never consulted there. -/
def ScopeData.timeoutAt (s : ScopeData) (now : ℤ) : FloatVal :=
  if s.cancelled then .fin 0
  else
    match s.timeout with
    | none => .inf
    | some t =>
      match s.entered with
      | none => t
      | some _ =>
        let remsecs := FloatVal.subQ (s.deadline.getD (.fin 0)) now
        if remsecs.le (.fin 0) then .fin 0 else remsecs

/-- `CancelScope.check()` at instant `now`: `some e` means the call raises
the exception `e`, `none` means it returns normally.

    if self.timeout() > 0: return
    if self._exc is None: raise CancelledError()
    raise self._exc              -/
def ScopeData.checkAt (s : ScopeData) (now : ℤ) : Option Exc :=
  if (FloatVal.fin 0).lt (s.timeoutAt now) then none
  else
    match s.exc with
    | none => some Exc.cancelledError
    | some k => some (Exc.custom k)

/-- `CancelScope.cancelled()`. -/
def Scope.cancelledQ (s : Scope) : Bool := s.data.cancelled

mutual
/-- `CancelScope._cancel(cs)` where `fromParent` states whether
`cs is self._parent` (see the header comment):

    with self._lock:
      if self._cancelled: return True
      if cs is self._parent and self._shield: return False
      self._cancelled = True
      for i, child in reversed(list(enumerate(self._children))):
        child._cancel(self)
        del self._children[i]
      return True

Returned components: the final state of every object of the subtree, the
ghost trace of labels of nodes whose `_cancelled` flag this call sets (in
the order they are set), and the returned boolean.  The `del` statement
only unlinks an already-processed child object from the list and mutates
no object; the first component keeps the original edges so that each
object's final state stays visible (no later operation of this model
reads the children list of a cancelled scope: `_cancel` short-circuits on
`_cancelled`, and `_add_child` of a cancelled parent never appends). -/
def Scope.cancelRun (fromParent : Bool) : Scope → Scope × List Nat × Bool
  | .mk d ch =>
    if d.cancelled then (.mk d ch, [], true)
    else if fromParent && d.shield then (.mk d ch, [], false)
    else
      let r := cancelChildren ch
      (.mk { d with cancelled := true } r.1, d.label :: r.2, true)

/-- The loop body of `_cancel` over the (reverse-enumerated) children:
the trace of a later child precedes that of an earlier one. -/
def cancelChildren : List Scope → List Scope × List Nat
  | [] => ([], [])
  | c :: cs =>
    let rest := cancelChildren cs
    let rc := Scope.cancelRun true c
    (rc.1 :: rest.1, rest.2.append rc.2.1)
end

/-- `CancelScope.cancel()` = `self._cancel(self)`.  The scope itself is
never its own `_parent` (a scope becomes a parent only by being the
ambient scope, which happens only after its own entry), so the origin
comparison is `false`. -/
def Scope.cancelPublic (s : Scope) : Scope × List Nat × Bool :=
  s.cancelRun false

/-- `CancelScope._add_child(child)`; `sameObj` states whether
`child is self`:

    with self._lock:
      if child is self: raise ValueError(...)
      if self._cancelled:
        child._cancel(self)
        return
      self._children.append(child)

Returns `(parent, child)` after the call, or the `ValueError`. -/
def Scope.addChild (sameObj : Bool) (parent child : Scope) :
    Except Unit (Scope × Scope) :=
  if sameObj then .error ()
  else if parent.data.cancelled then .ok (parent, (child.cancelRun true).1)
  else .ok (.mk parent.data (parent.children.append [child]), child)

/-- The exception-inheritance step of `__enter__`:

    if self._exc is None: self._exc = self._parent._exc            -/
def inheritExc (da : ScopeData) (p : ScopeData) : ScopeData :=
  if da.exc = none then { da with exc := p.exc } else da

/-- The timeout-merge step of `__enter__`:

    if not self._shield:
      parent_timeout = self._parent.timeout()
      if self._timeout is None: self._timeout = parent_timeout
      else: self._timeout = min(self._timeout, parent_timeout)     -/
def mergeTimeout (da : ScopeData) (p : ScopeData) (now : ℤ) : ScopeData :=
  if !da.shield then
    let pt := p.timeoutAt now
    match da.timeout with
    | none => { da with timeout := some pt }
    | some t => { da with timeout := some (FloatVal.minv t pt) }
  else da

/-- The deadline step of `__enter__`:

    if self._timeout is not None:
      self._deadline = self._entered + self._timeout

At this point `self._entered` has been set; the `none` fallback for
`entered` is unreachable from `enterScope`. -/
def setDeadline (d : ScopeData) : ScopeData :=
  match d.timeout with
  | none => d
  | some t =>
    match d.entered with
    | some e => { d with deadline := some (FloatVal.addQ e t) }
    | none => d

/-- Result of `CancelScope.__enter__`: the `RuntimeError('Cancel scope
already entered.')`, or an exception escaping from the on-enter
`check()`, or a normal return.  The last two carry the final state of
`self` and of the ambient parent (if one existed). -/
inductive EnterOutcome where
  | alreadyEntered
  | raised (self : Scope) (parent : Option Scope) (e : Exc)
  | ok (self : Scope) (parent : Option Scope)

/-- Final state of the parent after `__enter__`: `_add_child` appended
`self` (which the heap reaches in its final state `sf`) unless the
parent was already cancelled, in which case the list is untouched. -/
def reparent (parent : Option Scope) (sf : Scope) : Option Scope :=
  match parent with
  | none => none
  | some p =>
    if p.data.cancelled then some p
    else some (.mk p.data (p.children.append [sf]))

/-- `CancelScope.__enter__` with ambient scope `parent`, at instant `now`:

    if self._entered is not None: raise RuntimeError(...)
    self._entered = time.time()
    self._parent = _current_cancel_scope.get()
    if self._parent is not None:
      self._parent._add_child(self)
      if self._exc is None: self._exc = self._parent._exc
      if not self._shield:
        parent_timeout = self._parent.timeout()
        if self._timeout is None: self._timeout = parent_timeout
        else: self._timeout = min(self._timeout, parent_timeout)
    if self._timeout is not None:
      self._deadline = self._entered + self._timeout
    if self._on_enter: self.check()
    self._token = _current_cancel_scope.set(self)
    return self

`_add_child` cannot hit its `child is self` branch here: an unentered
scope is never the ambient scope.  When the parent is already cancelled,
`_add_child` runs `self._cancel(self._parent)` (origin = direct parent)
on this very object, which may mark `self`'s subtree; the merge steps
then run on the marked state.  The restore token is captured (`token`)
only after a passing check, mirroring the line order of the source. -/
def enterScope (self : Scope) (parent : Option Scope) (now : ℤ) :
    EnterOutcome :=
  match self with
  | .mk d ch =>
    if d.entered ≠ none then .alreadyEntered
    else
      let s1 : Scope := .mk { d with entered := some now } ch
      let s2 : Scope :=
        match parent with
        | none => s1
        | some p => if p.data.cancelled then (s1.cancelRun true).1 else s1
      let d2 : ScopeData :=
        match parent with
        | none => s2.data
        | some p => mergeTimeout (inheritExc s2.data p.data) p.data now
      let d3 := setDeadline d2
      match (if d3.onEnter then d3.checkAt now else none) with
      | some e =>
        let sf : Scope := .mk d3 s2.children
        .raised sf (reparent parent sf) e
      | none =>
        let sf : Scope := .mk { d3 with token := true } s2.children
        .ok sf (reparent parent sf)

/-- `CancelScope.__exit__(exc_type, exc_val, exc_tb)` at instant `now`;
`excRaised` states whether `exc_val is not None`:

    _current_cancel_scope.reset(self._token)
    self._token = None
    if exc_val is not None and self._on_exit: self.check()

Returns the final state of `self` and the exception raised by the
conditional `check()`, if any. -/
def exitScope (s : Scope) (excRaised : Bool) (now : ℤ) : Scope × Option Exc :=
  match s with
  | .mk d ch =>
    let d1 := { d with token := false }
    (.mk d1 ch, if excRaised && d1.onExit then d1.checkAt now else none)

/-- The self state carried by a non-`alreadyEntered` outcome. -/
def EnterOutcome.selfState : EnterOutcome → Option Scope
  | .alreadyEntered => none
  | .raised s _ _ => some s
  | .ok s _ => some s

/-- The parent state carried by a non-`alreadyEntered` outcome. -/
def EnterOutcome.parentState : EnterOutcome → Option (Option Scope)
  | .alreadyEntered => none
  | .raised _ p _ => some p
  | .ok _ p => some p

/-- Whether the outcome is an exception escaping the on-enter check. -/
def EnterOutcome.isRaised : EnterOutcome → Bool
  | .raised _ _ _ => true
  | _ => false

/-- The node reached from the root of a subtree by a list of child
indices into the registered children lists. -/
def nodeAt : Scope → List Nat → Option Scope
  | t, [] => some t
  | .mk _ ch, i :: p =>
    match ch[i]? with
    | some c => nodeAt c p
    | none => none

/-- Every node reached strictly below the root along the path, the
endpoint included, is unshielded. -/
def shieldFree : Scope → List Nat → Bool
  | _, [] => true
  | .mk _ ch, i :: p =>
    match ch[i]? with
    | some c => !c.data.shield && shieldFree c p
    | none => false

/-- The path descends through unshielded nodes and ends at a shielded
one: the nodes strictly between root and endpoint are unshielded and the
endpoint is shielded. -/
def blockedPath : Scope → List Nat → Bool
  | _, [] => false
  | .mk _ ch, i :: p =>
    match ch[i]? with
    | some c =>
      if p.isEmpty then c.data.shield else !c.data.shield && blockedPath c p
    | none => false

mutual
/-- The reachability invariant of the implementation: a cancelled scope
has an empty `_children` list (`_cancel` empties the list of every scope
it marks, and `_add_child` never appends to a cancelled parent). -/
def wfScope : Scope → Bool
  | .mk d ch => (!d.cancelled || ch.isEmpty) && wfList ch

/-- `wfScope` on every member of a list. -/
def wfList : List Scope → Bool
  | [] => true
  | c :: cs => wfScope c && wfList cs
end

mutual
/-- Modelled from the spec (§4.3): the order in which the cancellation
sweep sets flags — "set cancelled = true.  For each child, in reverse
registration order, recursively invoke `child._cancel(origin=target)`",
skipping already-cancelled targets and targets shielded from their
direct parent. -/
def specSweepOrder (fromParent : Bool) : Scope → List Nat
  | .mk d ch =>
    if d.cancelled then []
    else if fromParent && d.shield then []
    else d.label :: specSweepRev ch

/-- Modelled from the spec (§4.3): visit a children list in reverse
registration order, each child's subtree depth-first. -/
def specSweepRev : List Scope → List Nat
  | [] => []
  | c :: cs => (specSweepRev cs).append (specSweepOrder true c)
end

/-- The `_deadline` bookkeeping established by `__enter__` and never
changed afterwards: `_deadline` is set exactly when both `_entered` and
`_timeout` are, and then equals their sum. -/
def ScopeData.wfTimeB (d : ScopeData) : Bool :=
  match d.entered, d.timeout with
  | some e, some t => decide (d.deadline = some (FloatVal.addQ e t))
  | _, _ => decide (d.deadline = none)

/-- Construction parameters of one scope of a nested-entry chain: its
configured timeout, shield flag, configured exception id, and the
instant at which it is entered. -/
structure Cfg where
  timeout : Option FloatVal
  shield : Bool
  exc : Option Nat
  time : ℤ
deriving DecidableEq, Repr

/-- The fresh scope constructed from a chain configuration
(check-on-enter and check-on-exit off, ghost label 0). -/
def Cfg.toScope (c : Cfg) : Scope :=
  CancelScope.new 0 c.timeout c.shield c.exc false false

/-- Entering a nest of freshly constructed scopes one inside the other:
each configuration is constructed and entered with the previous scope as
the ambient parent (`none` at the root), exactly as stacked `with`
blocks do.  Returns the innermost entered scope, or `none` if some entry
did not return normally. -/
def enterChain : Option Scope → List Cfg → Option Scope
  | amb, [] => amb
  | amb, c :: rest =>
    match enterScope c.toScope amb c.time with
    | .ok s _ => enterChain (some s) rest
    | _ => none

/-- Modelled from the spec (§4.4, P5): the effective,
shield-truncated ancestry chain of the innermost scope, listed innermost
first — the walk toward the root stops at (and includes) the first
shielded scope. -/
def effAnc : List Cfg → List Cfg
  | [] => []
  | c :: rest => if c.shield then [c] else c :: effAnc rest

/-- Modelled from the spec (§4.4, P5): "no timeout was ever configured
anywhere in the (shielded) ancestry chain" for the innermost scope of a
chain listed root-first — every scope of the effective chain has no
finite configured timeout. -/
def noTimeoutChain (l : List Cfg) : Bool :=
  (effAnc l.reverse).all fun c =>
    decide (c.timeout = none ∨ c.timeout = some FloatVal.inf)

/-- Modelled from the spec (§4.5): the nearest configured exception kind
"found by walking from this scope toward the root" of a chain listed
root-first; `none` when no kind is configured anywhere on the walk. -/
def specNearestExc (l : List Cfg) : Option Nat :=
  l.reverse.findSome? fun c => c.exc

/-- The exception raised for a resolved configuration: the configured
instance, or the default `CancelledError` when none is configured. -/
def excKindOf : Option Nat → Exc
  | none => Exc.cancelledError
  | some k => Exc.custom k

/-- Structural induction over scope trees through the nested children
lists. -/
theorem Scope.ind {P : Scope → Prop}
    (h : ∀ d ch, (∀ c ∈ ch, P c) → P (.mk d ch)) : ∀ t, P t := by
  have key : ∀ n t, sizeOf t ≤ n → P t := by
    intro n
    induction n with
    | zero =>
      intro t ht
      cases t with
      | mk d ch => simp at ht
    | succ n ih =>
      intro t ht
      cases t with
      | mk d ch =>
        apply h
        intro c hc
        apply ih
        have hlt := List.sizeOf_lt_of_mem hc
        have hsz : sizeOf (Scope.mk d ch) = 1 + sizeOf d + sizeOf ch := by
          simp
        omega
  intro t
  exact key (sizeOf t) t (Nat.le_refl _)

theorem cancelChildren_fst (cs : List Scope) :
    (cancelChildren cs).1 = cs.map (fun c => (Scope.cancelRun true c).1) := by
  induction cs with
  | nil => simp [cancelChildren]
  | cons c cs ih => simp [cancelChildren, ih]

theorem cancelRun_mk (fp : Bool) (d : ScopeData) (ch : List Scope) :
    Scope.cancelRun fp (.mk d ch) =
      if d.cancelled then (.mk d ch, [], true)
      else if fp && d.shield then (.mk d ch, [], false)
      else (.mk { d with cancelled := true } (cancelChildren ch).1,
            d.label :: (cancelChildren ch).2, true) := by
  rw [Scope.cancelRun]

theorem cancelRun_data (fp : Bool) (d : ScopeData) (ch : List Scope) :
    ∃ b, ((Scope.cancelRun fp (.mk d ch)).1).data = { d with cancelled := b } := by
  rw [cancelRun_mk]
  by_cases hd : d.cancelled
  · exact ⟨true, by cases d; simp_all [Scope.data]⟩
  · by_cases hs : fp && d.shield
    · exact ⟨false, by cases d; simp_all [Scope.data]⟩
    · exact ⟨true, by simp [hd, hs, Scope.data]⟩

theorem cancelRun_flag_mono :
    ∀ t fp p c, nodeAt t p = some c → c.data.cancelled = true →
      ∃ c2, nodeAt ((Scope.cancelRun fp t).1) p = some c2 ∧
        c2.data.cancelled = true := by
  intro t
  induction t using Scope.ind with
  | h d ch ih =>
    intro fp p c hnode hc
    rw [cancelRun_mk]
    by_cases hd : d.cancelled
    · exact ⟨c, by simp [hd, hnode], hc⟩
    · by_cases hs : fp && d.shield
      · exact ⟨c, by simp [hd, hs, hnode], hc⟩
      · simp only [hd, hs, if_false]
        cases p with
        | nil =>
          simp only [nodeAt, Option.some.injEq] at hnode
          subst hnode
          simp only [Scope.data] at hc
          exact absurd hc (by simp [hd])
        | cons i p2 =>
          simp only [nodeAt] at hnode
          cases hci : ch[i]? with
          | none => rw [hci] at hnode; exact absurd hnode (by simp)
          | some ci =>
            rw [hci] at hnode
            have hmem : ci ∈ ch := List.getElem?_mem hci
            obtain ⟨c2, h2, hflag⟩ := ih ci hmem true p2 c hnode hc
            refine ⟨c2, ?_, hflag⟩
            simp only [nodeAt, cancelChildren_fst, List.getElem?_map, hci,
              Option.map_some]
            exact h2

theorem wfScope_mk (d : ScopeData) (ch : List Scope) :
    wfScope (.mk d ch) = ((!d.cancelled || ch.isEmpty) && wfList ch) := by
  rw [wfScope]

theorem wfList_mem :
    ∀ cs : List Scope, wfList cs = true → ∀ c ∈ cs, wfScope c = true := by
  intro cs
  induction cs with
  | nil => intro _ c hc; exact absurd hc (by simp)
  | cons x xs ih =>
    intro h c hc
    rw [wfList, Bool.and_eq_true] at h
    rcases List.mem_cons.mp hc with h1 | h1
    · subst h1; exact h.1
    · exact ih h.2 c h1

theorem cancelRun_clear :
    ∀ t fp p c, wfScope t = true → (fp = true → t.data.shield = false) →
      shieldFree t p = true → nodeAt t p = some c →
      ∃ c2, nodeAt ((Scope.cancelRun fp t).1) p = some c2 ∧
        c2.data.cancelled = true := by
  intro t
  induction t using Scope.ind with
  | h d ch ih =>
    intro fp p c hwf hsh hfree hnode
    rw [wfScope_mk, Bool.and_eq_true] at hwf
    by_cases hd : d.cancelled
    · have hemp : ch = [] := by
        have h1 := hwf.1
        simp [hd] at h1
        exact h1
      subst hemp
      cases p with
      | nil =>
        simp only [nodeAt, Option.some.injEq] at hnode
        subst hnode
        refine ⟨Scope.mk d [], ?_, ?_⟩
        · rw [cancelRun_mk, if_pos hd]
          simp [nodeAt]
        · simp [Scope.data, hd]
      | cons i p2 =>
        simp [nodeAt] at hnode
    · have hs : ¬((fp && d.shield) = true) := by
        cases fp with
        | false => simp
        | true =>
          have := hsh rfl
          simp [Scope.data] at this
          simp [this]
      rw [cancelRun_mk, if_neg hd, if_neg hs]
      cases p with
      | nil =>
        refine ⟨Scope.mk { d with cancelled := true } (cancelChildren ch).1,
          ?_, ?_⟩
        · simp [nodeAt]
        · simp [Scope.data]
      | cons i p2 =>
        simp only [nodeAt] at hnode
        simp only [shieldFree] at hfree
        cases hci : ch[i]? with
        | none => rw [hci] at hnode; exact absurd hnode (by simp)
        | some ci =>
          rw [hci] at hnode
          rw [hci, Bool.and_eq_true] at hfree
          have hmem : ci ∈ ch := List.getElem?_mem hci
          have hwfc : wfScope ci = true := wfList_mem ch hwf.2 ci hmem
          have hshc : true = true → ci.data.shield = false := by
            intro _
            have := hfree.1
            simp at this
            exact this
          obtain ⟨c2, h2, hflag⟩ := ih ci hmem true p2 c hwfc hshc hfree.2 hnode
          refine ⟨c2, ?_, hflag⟩
          simp only [nodeAt, cancelChildren_fst, List.getElem?_map, hci,
            Option.map_some]
          exact h2

theorem cancelRun_shield_id (d : ScopeData) (ch : List Scope)
    (hs : d.shield = true) :
    (Scope.cancelRun true (.mk d ch)).1 = .mk d ch := by
  rw [cancelRun_mk]
  by_cases hd : d.cancelled <;> simp [hd, hs]

theorem cancelRun_blocked :
    ∀ t fp p, blockedPath t p = true →
      nodeAt ((Scope.cancelRun fp t).1) p = nodeAt t p := by
  intro t
  induction t using Scope.ind with
  | h d ch ih =>
    intro fp p hb
    rw [cancelRun_mk]
    by_cases hd : d.cancelled
    · simp [hd]
    · by_cases hs : fp && d.shield
      · simp [hd, hs]
      · rw [if_neg hd, if_neg hs]
        cases p with
        | nil => simp [blockedPath] at hb
        | cons i p2 =>
          simp only [blockedPath] at hb
          cases hci : ch[i]? with
          | none => rw [hci] at hb; exact absurd hb (by simp)
          | some ci =>
            rw [hci] at hb
            have hstep :
                nodeAt (Scope.mk { d with cancelled := true }
                  (cancelChildren ch).1) (i :: p2) =
                nodeAt ((Scope.cancelRun true ci).1) p2 := by
              simp [nodeAt, cancelChildren_fst, List.getElem?_map, hci]
            have hstep2 :
                nodeAt (Scope.mk d ch) (i :: p2) = nodeAt ci p2 := by
              simp [nodeAt, hci]
            rw [hstep, hstep2]
            cases p2 with
            | nil =>
              simp only [List.isEmpty_nil, if_true] at hb
              cases ci with
              | mk dc chc =>
                have hbs : dc.shield = true := by
                  simpa [Scope.data] using hb
                rw [cancelRun_shield_id dc chc hbs]
            | cons j p3 =>
              simp only [List.isEmpty_cons, Bool.false_eq_true, if_false,
                Bool.and_eq_true] at hb
              exact ih ci (List.getElem?_mem hci) true (j :: p3) hb.2

theorem cancelChildren_snd (cs : List Scope)
    (h : ∀ c ∈ cs, (Scope.cancelRun true c).2.1 = specSweepOrder true c) :
    (cancelChildren cs).2 = specSweepRev cs := by
  induction cs with
  | nil => rw [cancelChildren, specSweepRev]
  | cons c cs ih =>
    rw [cancelChildren, specSweepRev]
    simp only []
    rw [ih (fun x hx => h x (List.mem_cons_of_mem c hx)),
      h c (List.mem_cons_self c cs)]

theorem cancelRun_trace :
    ∀ t fp, (Scope.cancelRun fp t).2.1 = specSweepOrder fp t := by
  intro t
  induction t using Scope.ind with
  | h d ch ih =>
    intro fp
    rw [cancelRun_mk, specSweepOrder]
    by_cases hd : d.cancelled
    · simp [hd]
    · by_cases hs : fp && d.shield
      · simp [hd, hs]
      · simp only [hd, if_false, hs, Bool.false_eq_true]
        rw [cancelChildren_snd ch (fun c hc => ih c hc true)]

/-- A fresh, inert `ScopeData` with the given ghost label and shield flag
(no timeout, no configured exception, checks off). -/
def plainData (label : Nat) (shield : Bool) : ScopeData :=
  { label := label, timeout := none, shield := shield, exc := none,
    entered := none, deadline := none, token := false, cancelled := false,
    onEnter := false, onExit := false }

/-- C1: when `Cancel()` on a scope returns, every then-registered
descendant reachable through unshielded nodes only has its cancelled
flag set; every descendant whose path hits a shield first keeps its
entire subtree unchanged; and the flags are set by the synchronous
depth-first sweep over parent→child edges, children in reverse
registration order (the ghost trace equals the order the spec
describes). -/
theorem C1_cancel_sweep (t : Scope) (hwf : wfScope t = true) :
    (∀ p c, p ≠ [] → shieldFree t p = true → nodeAt t p = some c →
      ∃ c2, nodeAt ((Scope.cancelPublic t).1) p = some c2 ∧
        c2.data.cancelled = true) ∧
    (∀ p, p ≠ [] → blockedPath t p = true →
      nodeAt ((Scope.cancelPublic t).1) p = nodeAt t p) ∧
    (Scope.cancelPublic t).2.1 = specSweepOrder false t := by
  refine ⟨?_, ?_, ?_⟩
  · intro p c _ hfree hnode
    exact cancelRun_clear t false p c hwf (by simp) hfree hnode
  · intro p _ hb
    exact cancelRun_blocked t false p hb
  · exact cancelRun_trace t false

/-- The tree used to witness `C1_cancel_sweep`: a root with an
unshielded child (with its own child) and a shielded child (with an
unshielded child below the shield). -/
def treeC1 : Scope :=
  .mk (plainData 0 false)
    [.mk (plainData 1 false) [.mk (plainData 3 false) []],
     .mk (plainData 2 true) [.mk (plainData 4 false) []]]

/-- Witness for `C1_cancel_sweep` on `treeC1`. -/
theorem C1_cancel_sweep_witness :
    wfScope treeC1 = true ∧
    ((∀ p c, p ≠ [] → shieldFree treeC1 p = true →
        nodeAt treeC1 p = some c →
        ∃ c2, nodeAt ((Scope.cancelPublic treeC1).1) p = some c2 ∧
          c2.data.cancelled = true) ∧
      (∀ p, p ≠ [] → blockedPath treeC1 p = true →
        nodeAt ((Scope.cancelPublic treeC1).1) p = nodeAt treeC1 p) ∧
      (Scope.cancelPublic treeC1).2.1 = specSweepOrder false treeC1) :=
  ⟨by decide, C1_cancel_sweep treeC1 (by decide)⟩

/-- C5, counterexample: a shielded scope that has already been cancelled
(here: it cancelled itself) is reached by its parent's sweep
(`fromParent = true`); `_cancel` returns `true` through the idempotence
branch, although "the cancelling origin is the target's direct parent
and the target is shielded". -/
def shieldedCancelled : Scope :=
  (Scope.cancelPublic (CancelScope.new 0 none true none false false)).1

/-- C5 fails as stated: `_cancel` with the direct parent as origin on
the shielded, already-cancelled scope returns `true`, not `false`. -/
theorem C5_counterexample :
    (Scope.cancelRun true shieldedCancelled).2.2 = true ∧
    shieldedCancelled.data.shield = true ∧
    shieldedCancelled.data.cancelled = true := by
  decide

/-- C5 (amended): `_cancel` returns `false` exactly when the target is
not already cancelled, the origin is the direct parent, and the target
is shielded — and then the target, flag and subtree, is untouched; a
self-initiated `cancel()` always returns `true` (the origin is never the
parent, so a shield never blocks it); on an already-cancelled target the
call is idempotent: it returns `true` and changes nothing. -/
theorem C5_shield_refusal (fp : Bool) (t : Scope) :
    ((Scope.cancelRun fp t).2.2 = false ↔
      (t.data.cancelled = false ∧ fp = true ∧ t.data.shield = true)) ∧
    ((Scope.cancelRun fp t).2.2 = false → (Scope.cancelRun fp t).1 = t) ∧
    (Scope.cancelPublic t).2.2 = true ∧
    (t.data.cancelled = true →
      (Scope.cancelRun fp t).1 = t ∧ (Scope.cancelRun fp t).2.2 = true) := by
  cases t with
  | mk d ch =>
    rw [Scope.cancelPublic, cancelRun_mk, cancelRun_mk]
    by_cases hd : d.cancelled
    · simp [hd, Scope.data]
    · by_cases hs : (fp && d.shield) = true
      · simp only [if_neg hd, if_pos hs, if_neg (by simp : ¬(false && d.shield) = true)]
        simp [Scope.data, hd, Bool.and_eq_true] at hs ⊢
        exact ⟨hs.1, hs.2⟩
      · simp only [if_neg hd, if_neg hs, if_neg (by simp : ¬(false && d.shield) = true)]
        simp [Scope.data, hd]
        intro h1
        cases hsd : d.shield with
        | false => rfl
        | true => simp [h1, hsd] at hs

theorem enterScope_none (d : ScopeData) (ch : List Scope) (now : ℤ)
    (hent : d.entered = none) :
    enterScope (.mk d ch) none now =
      (let d3 := setDeadline { d with entered := some now }
       match (if d3.onEnter then d3.checkAt now else none) with
       | some e => .raised (.mk d3 ch) none e
       | none => .ok (.mk { d3 with token := true } ch) none) := by
  simp [enterScope, hent, reparent, Scope.data, Scope.children]

theorem enterScope_some (d : ScopeData) (ch : List Scope) (p : Scope)
    (now : ℤ) (hent : d.entered = none) :
    enterScope (.mk d ch) (some p) now =
      (let s2 : Scope :=
        if p.data.cancelled then
          ((Scope.mk { d with entered := some now } ch).cancelRun true).1
        else .mk { d with entered := some now } ch
       let d3 := setDeadline (mergeTimeout (inheritExc s2.data p.data)
         p.data now)
       match (if d3.onEnter then d3.checkAt now else none) with
       | some e =>
        .raised (.mk d3 s2.children) (reparent (some p) (.mk d3 s2.children)) e
       | none =>
        .ok (.mk { d3 with token := true } s2.children)
          (reparent (some p) (.mk { d3 with token := true } s2.children))) := by
  simp [enterScope, hent, Scope.data, Scope.children]

theorem inheritExc_same (da p : ScopeData) :
    (inheritExc da p).label = da.label ∧
    (inheritExc da p).timeout = da.timeout ∧
    (inheritExc da p).shield = da.shield ∧
    (inheritExc da p).entered = da.entered ∧
    (inheritExc da p).deadline = da.deadline ∧
    (inheritExc da p).token = da.token ∧
    (inheritExc da p).cancelled = da.cancelled ∧
    (inheritExc da p).onEnter = da.onEnter ∧
    (inheritExc da p).onExit = da.onExit := by
  rw [inheritExc]
  split <;> simp

theorem inheritExc_exc (da p : ScopeData) :
    (inheritExc da p).exc = if da.exc = none then p.exc else da.exc := by
  rw [inheritExc]
  split <;> simp_all

theorem mergeTimeout_same (da p : ScopeData) (now : ℤ) :
    (mergeTimeout da p now).label = da.label ∧
    (mergeTimeout da p now).shield = da.shield ∧
    (mergeTimeout da p now).exc = da.exc ∧
    (mergeTimeout da p now).entered = da.entered ∧
    (mergeTimeout da p now).deadline = da.deadline ∧
    (mergeTimeout da p now).token = da.token ∧
    (mergeTimeout da p now).cancelled = da.cancelled ∧
    (mergeTimeout da p now).onEnter = da.onEnter ∧
    (mergeTimeout da p now).onExit = da.onExit := by
  rw [mergeTimeout]
  split
  · split <;> simp
  · simp

theorem FloatVal.minv_inf (x : FloatVal) : FloatVal.minv .inf x = x := by
  cases x <;> rfl

theorem mergeTimeout_timeout (da p : ScopeData) (now : ℤ) :
    (mergeTimeout da p now).timeout =
      if da.shield = true then da.timeout
      else some (FloatVal.minv (da.timeout.getD .inf) (p.timeoutAt now)) := by
  cases hs : da.shield with
  | true => simp [mergeTimeout, hs]
  | false =>
    cases ht : da.timeout with
    | none => simp [mergeTimeout, hs, ht, FloatVal.minv_inf]
    | some t => simp [mergeTimeout, hs, ht]

theorem setDeadline_same (d : ScopeData) :
    (setDeadline d).label = d.label ∧
    (setDeadline d).timeout = d.timeout ∧
    (setDeadline d).shield = d.shield ∧
    (setDeadline d).exc = d.exc ∧
    (setDeadline d).entered = d.entered ∧
    (setDeadline d).token = d.token ∧
    (setDeadline d).cancelled = d.cancelled ∧
    (setDeadline d).onEnter = d.onEnter ∧
    (setDeadline d).onExit = d.onExit := by
  cases ht : d.timeout with
  | none => simp [setDeadline, ht]
  | some t =>
    cases he : d.entered with
    | none => simp [setDeadline, ht, he]
    | some e => simp [setDeadline, ht, he]

theorem setDeadline_deadline (d : ScopeData) :
    (setDeadline d).deadline =
      match d.timeout, d.entered with
      | some t, some e => some (FloatVal.addQ e t)
      | some _, none => d.deadline
      | none, _ => d.deadline := by
  cases ht : d.timeout with
  | none => simp [setDeadline, ht]
  | some t =>
    cases he : d.entered with
    | none => simp [setDeadline, ht, he]
    | some e => simp [setDeadline, ht, he]

theorem enterScope_entered_ne (s : Scope) (parent : Option Scope) (now : ℤ)
    (h : s.data.entered ≠ none) :
    enterScope s parent now = .alreadyEntered := by
  cases s with
  | mk d ch =>
    simp [Scope.data] at h
    simp [enterScope, h]

/-- The state of `self` just after the `_add_child` call inside
`__enter__`: `_entered` has been set, and if the parent is already
cancelled, `self._cancel(self._parent)` has run on this object. -/
def entryAfterAdd (d : ScopeData) (ch : List Scope) (parent : Option Scope)
    (now : ℤ) : Scope :=
  match parent with
  | none => .mk { d with entered := some now } ch
  | some p =>
    if p.data.cancelled then
      ((Scope.mk { d with entered := some now } ch).cancelRun true).1
    else .mk { d with entered := some now } ch

/-- The own fields of `self` after the inheritance, merge and deadline
steps of `__enter__` (just before the optional on-enter check). -/
def entryCore (d : ScopeData) (ch : List Scope) (parent : Option Scope)
    (now : ℤ) : ScopeData :=
  setDeadline (match parent with
    | none => (entryAfterAdd d ch parent now).data
    | some p =>
      mergeTimeout (inheritExc (entryAfterAdd d ch parent now).data p.data)
        p.data now)

theorem enterScope_cases (d : ScopeData) (ch : List Scope)
    (parent : Option Scope) (now : ℤ) (hent : d.entered = none) :
    (∃ e, (if (entryCore d ch parent now).onEnter then
        (entryCore d ch parent now).checkAt now else none) = some e ∧
      enterScope (.mk d ch) parent now =
        .raised (.mk (entryCore d ch parent now)
            (entryAfterAdd d ch parent now).children)
          (reparent parent (.mk (entryCore d ch parent now)
            (entryAfterAdd d ch parent now).children)) e) ∨
    ((if (entryCore d ch parent now).onEnter then
        (entryCore d ch parent now).checkAt now else none) = none ∧
      enterScope (.mk d ch) parent now =
        .ok (.mk { entryCore d ch parent now with token := true }
            (entryAfterAdd d ch parent now).children)
          (reparent parent
            (.mk { entryCore d ch parent now with token := true }
              (entryAfterAdd d ch parent now).children))) := by
  cases parent with
  | none =>
    rw [enterScope_none d ch now hent]
    cases hc : (if (entryCore d ch none now).onEnter then
        (entryCore d ch none now).checkAt now else none) with
    | none =>
      right
      refine ⟨rfl, ?_⟩
      have hc2 := hc
      simp only [entryCore, entryAfterAdd, Scope.data, Scope.children] at hc2 ⊢
      simp [hc2, reparent]
    | some e =>
      left
      refine ⟨e, rfl, ?_⟩
      have hc2 := hc
      simp only [entryCore, entryAfterAdd, Scope.data, Scope.children] at hc2 ⊢
      simp [hc2, reparent]
  | some p =>
    rw [enterScope_some d ch p now hent]
    by_cases hpc : p.data.cancelled = true
    · cases hc : (if (entryCore d ch (some p) now).onEnter then
          (entryCore d ch (some p) now).checkAt now else none) with
      | none =>
        right
        refine ⟨rfl, ?_⟩
        have hc2 := hc
        simp only [entryCore, entryAfterAdd, hpc, if_true] at hc2 ⊢
        simp [hc2, reparent]
      | some e =>
        left
        refine ⟨e, rfl, ?_⟩
        have hc2 := hc
        simp only [entryCore, entryAfterAdd, hpc, if_true] at hc2 ⊢
        simp [hc2, reparent]
    · cases hc : (if (entryCore d ch (some p) now).onEnter then
          (entryCore d ch (some p) now).checkAt now else none) with
      | none =>
        right
        refine ⟨rfl, ?_⟩
        have hc2 := hc
        simp only [entryCore, entryAfterAdd, hpc, if_false,
          Bool.false_eq_true] at hc2 ⊢
        simp [hc2, reparent]
      | some e =>
        left
        refine ⟨e, rfl, ?_⟩
        have hc2 := hc
        simp only [entryCore, entryAfterAdd, hpc, if_false,
          Bool.false_eq_true] at hc2 ⊢
        simp [hc2, reparent]

theorem entryAfterAdd_data (d : ScopeData) (ch : List Scope)
    (parent : Option Scope) (now : ℤ) :
    ∃ b, (entryAfterAdd d ch parent now).data =
      { d with entered := some now, cancelled := b } := by
  cases parent with
  | none => exact ⟨d.cancelled, by cases d; simp [entryAfterAdd, Scope.data]⟩
  | some p =>
    by_cases hpc : p.data.cancelled = true
    · obtain ⟨b, hb⟩ :=
        cancelRun_data true { d with entered := some now } ch
      exact ⟨b, by simp only [entryAfterAdd, hpc, if_true]; exact hb⟩
    · refine ⟨d.cancelled, ?_⟩
      simp only [entryAfterAdd, if_neg hpc]
      cases d
      simp [Scope.data]

theorem cancelRun_entered (fp : Bool) (d : ScopeData) (ch : List Scope)
    (v : Option ℤ) :
    (Scope.cancelRun fp (.mk { d with entered := v } ch)).1 =
      .mk { ((Scope.cancelRun fp (.mk d ch)).1).data with entered := v }
        ((Scope.cancelRun fp (.mk d ch)).1).children ∧
    (Scope.cancelRun fp (.mk { d with entered := v } ch)).2 =
      (Scope.cancelRun fp (.mk d ch)).2 := by
  obtain ⟨l, t, sh, x, e, dl, tk, c, oe, ox⟩ := d
  cases c <;> cases fp <;> cases sh <;>
    simp [cancelRun_mk, Scope.data, Scope.children]

theorem entryAfterAdd_children (d : ScopeData) (ch : List Scope)
    (parent : Option Scope) (now : ℤ) :
    (entryAfterAdd d ch parent now).children = ch ∨
    ((∃ p, parent = some p ∧ p.data.cancelled = true) ∧
      (entryAfterAdd d ch parent now).children =
        ((Scope.cancelRun true (.mk d ch)).1).children) := by
  cases parent with
  | none => left; simp [entryAfterAdd, Scope.children]
  | some p =>
    by_cases hpc : p.data.cancelled = true
    · right
      refine ⟨⟨p, rfl, hpc⟩, ?_⟩
      simp only [entryAfterAdd, hpc, if_true]
      rw [(cancelRun_entered true d ch (some now)).1]
      simp [Scope.children]
    · left; simp [entryAfterAdd, hpc, Scope.children]

theorem entryCore_same (d : ScopeData) (ch : List Scope)
    (parent : Option Scope) (now : ℤ) :
    (entryCore d ch parent now).label = d.label ∧
    (entryCore d ch parent now).shield = d.shield ∧
    (entryCore d ch parent now).entered = some now ∧
    (entryCore d ch parent now).token = d.token ∧
    (entryCore d ch parent now).onEnter = d.onEnter ∧
    (entryCore d ch parent now).onExit = d.onExit ∧
    (entryCore d ch parent now).cancelled =
      (entryAfterAdd d ch parent now).data.cancelled := by
  obtain ⟨b, hb⟩ := entryAfterAdd_data d ch parent now
  cases parent with
  | none =>
    rw [entryCore, hb]
    cases ht : d.timeout <;> simp [setDeadline, ht]
  | some p =>
    rw [entryCore, hb]
    obtain ⟨il, it, ish, ie, idl, itk, ic, ioe, iox⟩ :=
      inheritExc_same { d with entered := some now, cancelled := b } p.data
    obtain ⟨ml, msh, mx, me, mdl, mtk, mc, moe, mox⟩ :=
      mergeTimeout_same
        (inheritExc { d with entered := some now, cancelled := b } p.data)
        p.data now
    obtain ⟨sl, st, ssh, sx, se, stk, sc, soe, sox⟩ :=
      setDeadline_same
        (mergeTimeout
          (inheritExc { d with entered := some now, cancelled := b } p.data)
          p.data now)
    refine ⟨?_, ?_, ?_, ?_, ?_, ?_, ?_⟩
    · rw [sl, ml, il]
    · rw [ssh, msh, ish]
    · rw [se, me, ie]
    · rw [stk, mtk, itk]
    · rw [soe, moe, ioe]
    · rw [sox, mox, iox]
    · rw [sc, mc, ic]

theorem entryCore_timeout (d : ScopeData) (ch : List Scope) (p : Scope)
    (now : ℤ) :
    (entryCore d ch (some p) now).timeout =
      if d.shield = true then d.timeout
      else some (FloatVal.minv (d.timeout.getD .inf) (p.data.timeoutAt now)) := by
  obtain ⟨b, hb⟩ := entryAfterAdd_data d ch (some p) now
  rw [entryCore, hb, (setDeadline_same _).2.1, mergeTimeout_timeout,
    (inheritExc_same _ p.data).2.2.1, (inheritExc_same _ p.data).2.1]

theorem entryCore_timeout_none (d : ScopeData) (ch : List Scope) (now : ℤ) :
    (entryCore d ch none now).timeout = d.timeout := by
  obtain ⟨b, hb⟩ := entryAfterAdd_data d ch none now
  rw [entryCore, hb, (setDeadline_same _).2.1]

theorem entryCore_exc (d : ScopeData) (ch : List Scope) (p : Scope)
    (now : ℤ) :
    (entryCore d ch (some p) now).exc =
      if d.exc = none then p.data.exc else d.exc := by
  obtain ⟨b, hb⟩ := entryAfterAdd_data d ch (some p) now
  rw [entryCore, hb, (setDeadline_same _).2.2.2.1,
    (mergeTimeout_same _ _ _).2.2.1, inheritExc_exc]

theorem entryCore_deadline (d : ScopeData) (ch : List Scope)
    (parent : Option Scope) (now : ℤ) (t : FloatVal)
    (ht : (entryCore d ch parent now).timeout = some t) :
    (entryCore d ch parent now).deadline = some (FloatVal.addQ now t) := by
  obtain ⟨b, hb⟩ := entryAfterAdd_data d ch parent now
  cases parent with
  | none =>
    rw [entryCore, hb] at ht ⊢
    have hdt : d.timeout = some t := by
      rw [(setDeadline_same _).2.1] at ht
      simpa using ht
    rw [setDeadline_deadline]
    simp [hdt]
  | some p =>
    rw [entryCore, hb] at ht ⊢
    have hmt : (mergeTimeout (inheritExc
        { d with entered := some now, cancelled := b } p.data)
        p.data now).timeout = some t := by
      rw [(setDeadline_same _).2.1] at ht
      exact ht
    have hme : (mergeTimeout (inheritExc
        { d with entered := some now, cancelled := b } p.data)
        p.data now).entered = some now := by
      rw [(mergeTimeout_same _ _ _).2.2.2.1, (inheritExc_same _ _).2.2.2.1]
    rw [setDeadline_deadline]
    simp [hmt, hme]

theorem enterScope_selfState (d : ScopeData) (ch : List Scope)
    (parent : Option Scope) (now : ℤ) (hent : d.entered = none) :
    ∃ tk, ((enterScope (.mk d ch) parent now).selfState =
      some (.mk { entryCore d ch parent now with token := tk }
        (entryAfterAdd d ch parent now).children)) ∧
      ((enterScope (.mk d ch) parent now).parentState =
        some (reparent parent
          (.mk { entryCore d ch parent now with token := tk }
            (entryAfterAdd d ch parent now).children))) := by
  rcases enterScope_cases d ch parent now hent with ⟨e, hc, heq⟩ | ⟨hc, heq⟩
  · exact ⟨(entryCore d ch parent now).token, by rw [heq]; rfl,
      by rw [heq]; rfl⟩
  · exact ⟨true, by rw [heq]; rfl, by rw [heq]; rfl⟩

/-- C9: `Enter()` on an instance whose entry timestamp is already set
always fails with the `AlreadyEntered` error; a successful entry sets
the timestamp, and `Exit()` never clears it — so re-entry fails whether
or not the first entry was exited. -/
theorem C9_single_entry :
    (∀ s parent now, s.data.entered ≠ none →
      enterScope s parent now = .alreadyEntered) ∧
    (∀ s parent now s2 p2, enterScope s parent now = .ok s2 p2 →
      s2.data.entered = some now) ∧
    (∀ s e now, ((exitScope s e now).1).data.entered = s.data.entered) := by
  refine ⟨enterScope_entered_ne, ?_, ?_⟩
  · intro s parent now s2 p2 h
    cases s with
    | mk d ch =>
      by_cases hent : d.entered = none
      · rcases enterScope_cases d ch parent now hent with ⟨e, _, heq⟩ |
          ⟨_, heq⟩
        · rw [heq] at h
          simp at h
        · rw [heq] at h
          injection h with h1 h2
          rw [← h1]
          simpa [Scope.data] using (entryCore_same d ch parent now).2.2.1
      · rw [enterScope_entered_ne (.mk d ch) parent now
          (by simpa [Scope.data] using hent)] at h
        simp at h
  · intro s e now
    cases s with
    | mk d ch => simp [exitScope, Scope.data]

/-- C6, counterexample: a scope with check-on-enter and timeout 0 raises
from the `check()` inside `Enter()`, and at that moment the restore
token has not been captured: the ambient scope was never updated,
although the claim says it has already been set. -/
def onEnterZero : Scope := CancelScope.new 6 (some (.fin 0)) false none true false

/-- C6 fails as stated: the raise escapes `Enter()` with the token still
unset (the source runs `check()` before `_current_cancel_scope.set`). -/
theorem C6_counterexample :
    (enterScope onEnterZero none 5).isRaised = true ∧
    ((enterScope onEnterZero none 5).selfState.map fun s => s.data.token) =
      some false := by
  decide

/-- C6 (amended): `__enter__` runs the check-on-enter `Check()` before
setting the ambient scope: when the check raises, the token field is
exactly as it was (no restore token captured, ambient unchanged); only a
normal return sets it. -/
theorem C6_check_before_ambient :
    (∀ s parent now s2 p2 e, enterScope s parent now = .raised s2 p2 e →
      s2.data.token = s.data.token) ∧
    (∀ s parent now s2 p2, enterScope s parent now = .ok s2 p2 →
      s2.data.token = true) := by
  constructor
  · intro s parent now s2 p2 e h
    cases s with
    | mk d ch =>
      by_cases hent : d.entered = none
      · rcases enterScope_cases d ch parent now hent with ⟨e2, _, heq⟩ |
          ⟨_, heq⟩
        · rw [heq] at h
          injection h with h1 h2 h3
          rw [← h1]
          simpa [Scope.data] using (entryCore_same d ch parent now).2.2.2.1
        · rw [heq] at h
          simp at h
      · rw [enterScope_entered_ne (.mk d ch) parent now
          (by simpa [Scope.data] using hent)] at h
        simp at h
  · intro s parent now s2 p2 h
    cases s with
    | mk d ch =>
      by_cases hent : d.entered = none
      · rcases enterScope_cases d ch parent now hent with ⟨e2, _, heq⟩ |
          ⟨_, heq⟩
        · rw [heq] at h
          simp at h
        · rw [heq] at h
          injection h with h1 h2
          rw [← h1]
          simp [Scope.data]
      · rw [enterScope_entered_ne (.mk d ch) parent now
          (by simpa [Scope.data] using hent)] at h
        simp at h

/-- C3: for a scope entered under an existing parent, the effective
timeout fixed at entry is `min(own timeout or +inf, parent's remaining
timeout at entry)` unless shielded, in which case it is the own
configured timeout alone; when the effective timeout is finite, the
absolute deadline is entry time plus effective timeout. -/
theorem C3_deadline_merge :
    ∀ d ch p now s2,
      d.entered = none →
      (enterScope (.mk d ch) (some p) now).selfState = some s2 →
      (d.shield = false →
        s2.data.timeout =
          some (FloatVal.minv (d.timeout.getD .inf) (p.data.timeoutAt now))) ∧
      (d.shield = true → s2.data.timeout = d.timeout) ∧
      (∀ q, s2.data.timeout = some (.fin q) →
        s2.data.deadline = some (.fin (now + q))) ∧
      s2.data.entered = some now := by
  intro d ch p now s2 hent hself
  obtain ⟨tk, hs2, _⟩ := enterScope_selfState d ch (some p) now hent
  rw [hself] at hs2
  injection hs2 with hs2
  subst hs2
  have hto : (Scope.mk { entryCore d ch (some p) now with token := tk }
      (entryAfterAdd d ch (some p) now).children).data.timeout =
      (entryCore d ch (some p) now).timeout := by
    simp [Scope.data]
  have hdl : (Scope.mk { entryCore d ch (some p) now with token := tk }
      (entryAfterAdd d ch (some p) now).children).data.deadline =
      (entryCore d ch (some p) now).deadline := by
    simp [Scope.data]
  refine ⟨?_, ?_, ?_, ?_⟩
  · intro hsh
    rw [hto, entryCore_timeout, if_neg (by simp [hsh])]
  · intro hsh
    rw [hto, entryCore_timeout, if_pos hsh]
  · intro q hq
    rw [hto] at hq
    rw [hdl, entryCore_deadline d ch (some p) now (.fin q) hq]
    rfl
  · simpa [Scope.data] using (entryCore_same d ch (some p) now).2.2.1

/-- Child configuration used to witness `C3_deadline_merge`: own timeout
10, unshielded, not yet entered. -/
def dC3 : ScopeData :=
  { (plainData 30 false) with timeout := some (.fin 10) }

/-- Parent used to witness `C3_deadline_merge`: entered at 0 with
timeout 4, so 3 seconds remain at the child's entry instant 1. -/
def pC3 : Scope :=
  .mk
    { (plainData 31 false) with
      timeout := some (.fin 4),
      entered := some 0,
      deadline := some (.fin 4) } []

/-- The child state produced by the witnessed entry. -/
def s2C3 : Scope :=
  ((enterScope (.mk dC3 []) (some pC3) 1).selfState).getD
    (CancelScope.new 0 none false none false false)

/-- Witness for `C3_deadline_merge`: entering the child at instant 1
under `pC3` merges the timeout to `min(10, 3) = 3` and sets the
deadline `1 + 3 = 4`. -/
theorem C3_deadline_merge_witness :
    dC3.entered = none ∧
    (enterScope (.mk dC3 []) (some pC3) 1).selfState = some s2C3 ∧
    ((dC3.shield = false →
        s2C3.data.timeout =
          some (FloatVal.minv (dC3.timeout.getD .inf)
            (pC3.data.timeoutAt 1))) ∧
      (dC3.shield = true → s2C3.data.timeout = dC3.timeout) ∧
      (∀ q, s2C3.data.timeout = some (.fin q) →
        s2C3.data.deadline = some (.fin (1 + q))) ∧
      s2C3.data.entered = some 1) :=
  ⟨by decide, by rfl,
    C3_deadline_merge dC3 [] pC3 1 s2C3 (by decide) (by rfl)⟩

theorem cancelRun_unshielded_flag (fp : Bool) (d : ScopeData)
    (ch : List Scope) (h : (fp && d.shield) = false) :
    ((Scope.cancelRun fp (.mk d ch)).1).data.cancelled = true := by
  rw [cancelRun_mk]
  by_cases hd : d.cancelled
  · simp [hd, Scope.data]
  · rw [if_neg hd, if_neg (by simp [h])]
    simp [Scope.data]

theorem nodeAt_cons_eq (d1 d2 : ScopeData) (ch : List Scope) (i : Nat)
    (p : List Nat) :
    nodeAt (.mk d1 ch) (i :: p) = nodeAt (.mk d2 ch) (i :: p) := by
  simp [nodeAt]

/-- C2: entering a child under an already-cancelled parent never appends
the child to the parent's children list; instead the child is handed to
`_cancel` with the parent as origin at once, so its whole subtree ends
exactly as that recursive cancellation leaves it — in particular an
unshielded child observes `Cancelled() == true` immediately. -/
theorem C2_attach_to_cancelled :
    ∀ d ch p now,
      d.entered = none → p.data.cancelled = true →
      (enterScope (.mk d ch) (some p) now).parentState = some (some p) ∧
      ∃ s2, (enterScope (.mk d ch) (some p) now).selfState = some s2 ∧
        s2.data.cancelled =
          ((Scope.cancelRun true (.mk d ch)).1).data.cancelled ∧
        (∀ q, q ≠ [] →
          nodeAt s2 q = nodeAt ((Scope.cancelRun true (.mk d ch)).1) q) ∧
        (d.shield = false → s2.data.cancelled = true) := by
  intro d ch p now hent hpc
  obtain ⟨tk, hself, hpar⟩ := enterScope_selfState d ch (some p) now hent
  have hcr := cancelRun_entered true d ch (some now)
  have hadd : entryAfterAdd d ch (some p) now =
      .mk { ((Scope.cancelRun true (.mk d ch)).1).data with entered := some now }
        ((Scope.cancelRun true (.mk d ch)).1).children := by
    rw [entryAfterAdd]
    simp only [hpc, if_true]
    exact hcr.1
  constructor
  · rw [hpar]
    simp [reparent, hpc]
  · refine ⟨_, hself, ?_, ?_, ?_⟩
    · have h1 := (entryCore_same d ch (some p) now).2.2.2.2.2.2
      simp only [Scope.data]
      rw [h1, hadd]
      simp [Scope.data]
    · intro q hq
      cases q with
      | nil => exact absurd rfl hq
      | cons i q2 =>
        cases hres : (Scope.cancelRun true (.mk d ch)).1 with
        | mk cd cch =>
          have hch : (entryAfterAdd d ch (some p) now).children = cch := by
            rw [hadd, hres]
            exact rfl
          rw [hch]
          exact nodeAt_cons_eq _ cd cch i q2
    · intro hsh
      have h1 := (entryCore_same d ch (some p) now).2.2.2.2.2.2
      simp only [Scope.data]
      rw [h1, hadd]
      simp only [Scope.data]
      exact cancelRun_unshielded_flag true d ch (by simp [hsh])

/-- A fresh, childless scope entered at instant 0 and then cancelled:
the cancelled parent used to witness `C2_attach_to_cancelled`. -/
def pC2 : Scope :=
  match enterScope (.mk (plainData 21 false) []) none 0 with
  | .ok s _ => (Scope.cancelPublic s).1
  | _ => .mk (plainData 21 false) []

/-- Witness for `C2_attach_to_cancelled`: an unshielded fresh child
entered under the cancelled `pC2` at instant 1. -/
theorem C2_attach_to_cancelled_witness :
    (plainData 20 false).entered = none ∧ pC2.data.cancelled = true ∧
    ((enterScope (.mk (plainData 20 false) []) (some pC2) 1).parentState =
        some (some pC2) ∧
      ∃ s2, (enterScope (.mk (plainData 20 false) []) (some pC2) 1).selfState =
          some s2 ∧
        s2.data.cancelled =
          ((Scope.cancelRun true (.mk (plainData 20 false) [])).1).data.cancelled ∧
        (∀ q, q ≠ [] →
          nodeAt s2 q =
            nodeAt ((Scope.cancelRun true (.mk (plainData 20 false) [])).1) q) ∧
        ((plainData 20 false).shield = false → s2.data.cancelled = true)) :=
  ⟨by decide, by decide,
    C2_attach_to_cancelled (plainData 20 false) [] pC2 1 (by decide) (by decide)⟩

/-- C10 (amended): when the check-on-enter `Check()` raises inside
`Enter()`, nothing is rolled back: the scope keeps its entry timestamp
(so any later `Enter()` fails with `AlreadyEntered`), the effective
timeout, deadline and inherited exception kind keep the values computed
during the failed entry, and the restore token was never captured.  The
scope stays registered as the last child of its parent when the parent
existed and was NOT already cancelled; under an already-cancelled parent
it was never registered (the parent is unchanged). -/
theorem C10_no_rollback :
    ∀ d ch p now s2 p2 e,
      enterScope (.mk d ch) (some p) now = .raised s2 p2 e →
      s2.data.entered = some now ∧
      (∀ parent2 n2, enterScope s2 parent2 n2 = .alreadyEntered) ∧
      (p.data.cancelled = false →
        p2 = some (.mk p.data (p.children.append [s2]))) ∧
      (p.data.cancelled = true → p2 = some p) ∧
      s2.data.token = d.token ∧
      (d.shield = false →
        s2.data.timeout =
          some (FloatVal.minv (d.timeout.getD .inf) (p.data.timeoutAt now))) ∧
      (d.shield = true → s2.data.timeout = d.timeout) ∧
      (∀ q, s2.data.timeout = some (.fin q) →
        s2.data.deadline = some (.fin (now + q))) ∧
      s2.data.exc = (if d.exc = none then p.data.exc else d.exc) := by
  intro d ch p now s2 p2 e h
  by_cases hent : d.entered = none
  · rcases enterScope_cases d ch (some p) now hent with ⟨e2, _, heq⟩ |
      ⟨_, heq⟩
    · rw [heq] at h
      injection h with h1 h2 h3
      subst h1
      subst h2
      have hdat : (Scope.mk (entryCore d ch (some p) now)
          (entryAfterAdd d ch (some p) now).children).data =
          entryCore d ch (some p) now := by
        simp [Scope.data]
      have hentered : (entryCore d ch (some p) now).entered = some now :=
        (entryCore_same d ch (some p) now).2.2.1
      refine ⟨?_, ?_, ?_, ?_, ?_, ?_, ?_, ?_, ?_⟩
      · rw [hdat, hentered]
      · intro parent2 n2
        apply enterScope_entered_ne
        rw [hdat, hentered]
        simp
      · intro hpcf
        rw [reparent]
        simp [hpcf, Scope.children]
      · intro hpct
        rw [reparent]
        simp [hpct]
      · rw [hdat]
        exact (entryCore_same d ch (some p) now).2.2.2.1
      · intro hsh
        rw [hdat, entryCore_timeout, if_neg (by simp [hsh])]
      · intro hsh
        rw [hdat, entryCore_timeout, if_pos hsh]
      · intro q hq
        rw [hdat] at hq ⊢
        rw [entryCore_deadline d ch (some p) now (.fin q) hq]
        rfl
      · rw [hdat, entryCore_exc]
    · rw [heq] at h
      simp at h
  · rw [enterScope_entered_ne (.mk d ch) (some p) now
      (by simpa [Scope.data] using hent)] at h
    simp at h

/-- The already-cancelled parent of the C10 counterexample: entered at
instant 0, then cancelled. -/
def pCxC10 : Scope :=
  match enterScope (.mk (plainData 42 false) []) none 0 with
  | .ok s _ => (Scope.cancelPublic s).1
  | _ => .mk (plainData 42 false) []

/-- The outcome of entering a check-on-enter child under the cancelled
parent `pCxC10` at instant 1: the child is auto-cancelled, so the
on-enter check raises. -/
def cxC10 : EnterOutcome :=
  enterScope (.mk { (plainData 43 false) with onEnter := true } [])
    (some pCxC10) 1

/-- C10 fails as stated: a parent existed and the on-enter check raised,
yet the child is NOT registered in the parent's children list (the
parent was already cancelled, so `_add_child` cancelled the child
instead of appending it). -/
theorem C10_counterexample :
    cxC10.isRaised = true ∧
    (cxC10.parentState.map fun pp => pp.map fun q => q.children.length) =
      some (some 0) := by
  decide

/-- The parent of the C10 witness: entered at 0 with timeout 1, so its
deadline has lapsed at the child's entry instant 2 (but it is not
cancelled). -/
def pWC10 : Scope :=
  .mk
    { (plainData 40 false) with
      timeout := some (.fin 1),
      entered := some 0,
      deadline := some (.fin 1) } []

/-- The check-on-enter child of the C10 witness. -/
def dWC10 : ScopeData := { (plainData 41 false) with onEnter := true }

/-- The raised outcome of the C10 witness entry. -/
def outWC10 : EnterOutcome := enterScope (.mk dWC10 []) (some pWC10) 2

/-- The child state carried by the raised outcome of the C10 witness. -/
def s2WC10 : Scope :=
  (outWC10.selfState).getD (CancelScope.new 0 none false none false false)

/-- The parent state carried by the raised outcome of the C10 witness. -/
def p2WC10 : Option Scope := (outWC10.parentState).getD none

/-- The exception carried by the raised outcome of the C10 witness. -/
def eWC10 : Exc :=
  match outWC10 with
  | .raised _ _ e => e
  | _ => Exc.cancelledError

/-- Witness for `C10_no_rollback`: entering the check-on-enter child
under the lapsed (uncancelled) parent raises, and the partial entry is
kept. -/
theorem C10_no_rollback_witness :
    enterScope (.mk dWC10 []) (some pWC10) 2 = .raised s2WC10 p2WC10 eWC10 ∧
    (s2WC10.data.entered = some 2 ∧
      (∀ parent2 n2, enterScope s2WC10 parent2 n2 = .alreadyEntered) ∧
      (pWC10.data.cancelled = false →
        p2WC10 = some (.mk pWC10.data (pWC10.children.append [s2WC10]))) ∧
      (pWC10.data.cancelled = true → p2WC10 = some pWC10) ∧
      s2WC10.data.token = dWC10.token ∧
      (dWC10.shield = false →
        s2WC10.data.timeout =
          some (FloatVal.minv (dWC10.timeout.getD .inf)
            (pWC10.data.timeoutAt 2))) ∧
      (dWC10.shield = true → s2WC10.data.timeout = dWC10.timeout) ∧
      (∀ q, s2WC10.data.timeout = some (.fin q) →
        s2WC10.data.deadline = some (.fin (2 + q))) ∧
      s2WC10.data.exc =
        (if dWC10.exc = none then pWC10.data.exc else dWC10.exc)) :=
  ⟨by rfl, C10_no_rollback dWC10 [] pWC10 2 s2WC10 p2WC10 eWC10 (by rfl)⟩

theorem cancelRun_root_mono (fp : Bool) (t : Scope)
    (h : t.data.cancelled = true) :
    ((Scope.cancelRun fp t).1).data.cancelled = true := by
  have hnil : nodeAt t [] = some t := by cases t; rfl
  obtain ⟨c2, h2, hf⟩ := cancelRun_flag_mono t fp [] t hnil h
  have hnil2 : nodeAt ((Scope.cancelRun fp t).1) [] =
      some ((Scope.cancelRun fp t).1) := by
    cases hres : (Scope.cancelRun fp t).1
    rfl
  rw [hnil2] at h2
  injection h2 with h2
  rw [h2]
  exact hf

theorem nodeAt_grow :
    ∀ (t x : Scope) (q : List Nat) (c : Scope),
      nodeAt t q = some c → c.data.cancelled = true →
      ∃ c2, nodeAt (.mk t.data (t.children.append [x])) q = some c2 ∧
        c2.data.cancelled = true := by
  intro t x q c h hc
  cases t with
  | mk td tch =>
    cases q with
    | nil =>
      simp only [nodeAt, Option.some.injEq] at h
      refine ⟨.mk (Scope.mk td tch).data ((Scope.mk td tch).children.append [x]),
        rfl, ?_⟩
      rw [← h] at hc
      simpa [Scope.data] using hc
    | cons i q2 =>
      simp only [nodeAt] at h ⊢
      cases hci : tch[i]? with
      | none => rw [hci] at h; exact absurd h (by simp)
      | some ci =>
        rw [hci] at h
        have hlen : i < tch.length := by
          by_contra hge
          rw [List.getElem?_eq_none (by omega)] at hci
          exact absurd hci (by simp)
        refine ⟨c, ?_, hc⟩
        simp only [Scope.data, Scope.children, List.append_eq]
        rw [List.getElem?_append_left hlen, hci]
        exact h

theorem enter_self_mono (d : ScopeData) (ch : List Scope)
    (parent : Option Scope) (now : ℤ) (s2 : Scope)
    (hself : (enterScope (.mk d ch) parent now).selfState = some s2) :
    ∀ q c, nodeAt (.mk d ch) q = some c → c.data.cancelled = true →
      ∃ c2, nodeAt s2 q = some c2 ∧ c2.data.cancelled = true := by
  by_cases hent : d.entered = none
  · obtain ⟨tk, hs2, _⟩ := enterScope_selfState d ch parent now hent
    rw [hself] at hs2
    injection hs2 with hs2
    subst hs2
    intro q c h hc
    cases q with
    | nil =>
      simp only [nodeAt, Option.some.injEq] at h
      refine ⟨_, rfl, ?_⟩
      have hcore := (entryCore_same d ch parent now).2.2.2.2.2.2
      have hroot : (entryAfterAdd d ch parent now).data.cancelled = true := by
        cases parent with
        | none =>
          show ((Scope.mk { d with entered := some now } ch)).data.cancelled
            = true
          rw [← h] at hc
          simpa [Scope.data] using hc
        | some p =>
          by_cases hpc : p.data.cancelled = true
          · have he : entryAfterAdd d ch (some p) now =
                ((Scope.mk { d with entered := some now } ch).cancelRun
                  true).1 := by
              simp only [entryAfterAdd, hpc, if_true]
            rw [he]
            apply cancelRun_root_mono
            rw [← h] at hc
            simpa [Scope.data] using hc
          · have he : entryAfterAdd d ch (some p) now =
                Scope.mk { d with entered := some now } ch := by
              simp only [entryAfterAdd, hpc, if_false, Bool.false_eq_true]
            rw [he]
            rw [← h] at hc
            simpa [Scope.data] using hc
      simpa [Scope.data, hcore] using hroot
    | cons i q2 =>
      rcases entryAfterAdd_children d ch parent now with hsame | ⟨_, hcanc⟩
      · refine ⟨c, ?_, hc⟩
        rw [show nodeAt (Scope.mk
            { entryCore d ch parent now with token := tk }
            (entryAfterAdd d ch parent now).children) (i :: q2) =
          nodeAt (Scope.mk d (entryAfterAdd d ch parent now).children)
            (i :: q2) from nodeAt_cons_eq _ _ _ i q2, hsame]
        exact h
      · obtain ⟨c2, h2, hf⟩ :=
          cancelRun_flag_mono (.mk d ch) true (i :: q2) c h hc
        refine ⟨c2, ?_, hf⟩
        cases hres : (Scope.cancelRun true (Scope.mk d ch)).1 with
        | mk cd cch =>
          have hch2 : (entryAfterAdd d ch parent now).children = cch := by
            rw [hcanc, hres]
            exact rfl
          rw [hres] at h2
          rw [hch2, show nodeAt (Scope.mk
              { entryCore d ch parent now with token := tk } cch) (i :: q2) =
            nodeAt (Scope.mk cd cch) (i :: q2) from
              nodeAt_cons_eq _ _ _ i q2]
          exact h2
  · rw [enterScope_entered_ne (.mk d ch) parent now
      (by simpa [Scope.data] using hent)] at hself
    simp [EnterOutcome.selfState] at hself

theorem enter_parent_mono (s p : Scope) (now : ℤ) (p2 : Option Scope)
    (hpar : (enterScope s (some p) now).parentState = some p2) :
    ∃ pp2, p2 = some pp2 ∧
      (∀ q c, nodeAt p q = some c → c.data.cancelled = true →
        ∃ c2, nodeAt pp2 q = some c2 ∧ c2.data.cancelled = true) := by
  cases s with
  | mk d ch =>
    by_cases hent : d.entered = none
    · obtain ⟨tk, _, hp2⟩ := enterScope_selfState d ch (some p) now hent
      rw [hpar] at hp2
      injection hp2 with hp2
      subst hp2
      rw [reparent]
      by_cases hpc : p.data.cancelled = true
      · refine ⟨p, by simp [hpc], ?_⟩
        intro q c h hc
        exact ⟨c, h, hc⟩
      · simp only [hpc, if_false, Bool.false_eq_true]
        refine ⟨_, rfl, ?_⟩
        intro q c h hc
        exact nodeAt_grow p _ q c h hc
    · rw [enterScope_entered_ne (.mk d ch) (some p) now
        (by simpa [Scope.data] using hent)] at hpar
      simp [EnterOutcome.parentState] at hpar

/-- C8: the cancelled flag is monotonic.  Across every state-changing
operation of the model — the cancellation sweep, `_add_child` (both the
parent's and the child's final state), `Enter()` (both the entered scope
and its parent), and `Exit()` — a scope object whose flag is true keeps
it true; `Cancelled()`, `RemainingTimeout()` and `Check()` return values
without touching any state. -/
theorem C8_cancelled_monotonic :
    (∀ t fp q c, nodeAt t q = some c → c.data.cancelled = true →
      ∃ c2, nodeAt ((Scope.cancelRun fp t).1) q = some c2 ∧
        c2.data.cancelled = true) ∧
    (∀ so parent child pr cr,
      Scope.addChild so parent child = .ok (pr, cr) →
      (∀ q c, nodeAt parent q = some c → c.data.cancelled = true →
        ∃ c2, nodeAt pr q = some c2 ∧ c2.data.cancelled = true) ∧
      (∀ q c, nodeAt child q = some c → c.data.cancelled = true →
        ∃ c2, nodeAt cr q = some c2 ∧ c2.data.cancelled = true)) ∧
    (∀ d ch parent now s2,
      (enterScope (.mk d ch) parent now).selfState = some s2 →
      ∀ q c, nodeAt (.mk d ch) q = some c → c.data.cancelled = true →
        ∃ c2, nodeAt s2 q = some c2 ∧ c2.data.cancelled = true) ∧
    (∀ s p now p2, (enterScope s (some p) now).parentState = some p2 →
      ∃ pp2, p2 = some pp2 ∧
        (∀ q c, nodeAt p q = some c → c.data.cancelled = true →
          ∃ c2, nodeAt pp2 q = some c2 ∧ c2.data.cancelled = true)) ∧
    (∀ s e now q c, nodeAt s q = some c → c.data.cancelled = true →
      ∃ c2, nodeAt ((exitScope s e now).1) q = some c2 ∧
        c2.data.cancelled = true) := by
  refine ⟨?_, ?_, enter_self_mono, enter_parent_mono, ?_⟩
  · intro t fp q c h hc
    exact cancelRun_flag_mono t fp q c h hc
  · intro so parent child pr cr h
    rw [Scope.addChild] at h
    by_cases hso : so = true
    · rw [if_pos hso] at h
      simp at h
    · rw [if_neg hso] at h
      by_cases hpc : parent.data.cancelled = true
      · rw [if_pos hpc] at h
        simp only [Except.ok.injEq, Prod.mk.injEq] at h
        obtain ⟨hpr, hcr⟩ := h
        constructor
        · intro q c hn hcflag
          exact ⟨c, by rw [← hpr]; exact hn, hcflag⟩
        · intro q c hn hcflag
          rw [← hcr]
          exact cancelRun_flag_mono child true q c hn hcflag
      · rw [if_neg hpc] at h
        simp only [Except.ok.injEq, Prod.mk.injEq] at h
        obtain ⟨hpr, hcr⟩ := h
        constructor
        · intro q c hn hcflag
          rw [← hpr]
          exact nodeAt_grow parent child q c hn hcflag
        · intro q c hn hcflag
          exact ⟨c, by rw [← hcr]; exact hn, hcflag⟩
  · intro s e now q c h hc
    cases s with
    | mk d ch =>
      rw [exitScope]
      cases q with
      | nil =>
        simp only [nodeAt, Option.some.injEq] at h
        refine ⟨_, rfl, ?_⟩
        rw [← h] at hc
        simpa [Scope.data] using hc
      | cons i q2 =>
        refine ⟨c, ?_, hc⟩
        rw [show nodeAt (Scope.mk { d with token := false } ch) (i :: q2) =
          nodeAt (Scope.mk d ch) (i :: q2) from nodeAt_cons_eq _ _ _ i q2]
        exact h

theorem wfTimeB_split (d : ScopeData) (hw : d.wfTimeB = true) :
    (∃ e t, d.entered = some e ∧ d.timeout = some t ∧
      d.deadline = some (FloatVal.addQ e t)) ∨
    ((d.entered = none ∨ d.timeout = none) ∧ d.deadline = none) := by
  rw [ScopeData.wfTimeB] at hw
  cases he : d.entered with
  | none =>
    rw [he] at hw
    right
    refine ⟨Or.inl rfl, ?_⟩
    cases ht : d.timeout with
    | none => rw [ht] at hw; simpa using hw
    | some t => rw [ht] at hw; simpa using hw
  | some e =>
    rw [he] at hw
    cases ht : d.timeout with
    | none =>
      rw [ht] at hw
      exact Or.inr ⟨Or.inr rfl, by simpa using hw⟩
    | some t =>
      rw [ht] at hw
      exact Or.inl ⟨e, t, rfl, rfl, by simpa using hw⟩

theorem entryCore_deadline_none (d : ScopeData) (ch : List Scope)
    (parent : Option Scope) (now : ℤ)
    (ht : (entryCore d ch parent now).timeout = none) :
    (entryCore d ch parent now).deadline = d.deadline := by
  obtain ⟨b, hb⟩ := entryAfterAdd_data d ch parent now
  cases parent with
  | none =>
    rw [entryCore, hb] at ht ⊢
    rw [(setDeadline_same _).2.1] at ht
    rw [setDeadline_deadline]
    simp only [ScopeData.timeout] at ht
    simp [ht]
  | some p =>
    rw [entryCore, hb] at ht ⊢
    rw [(setDeadline_same _).2.1] at ht
    rw [setDeadline_deadline, ht]
    rw [(mergeTimeout_same _ _ _).2.2.2.2.1, (inheritExc_same _ _).2.2.2.2.1]

theorem timeoutAt_inf_iff (d : ScopeData) (tq : ℤ)
    (hc : d.cancelled = false) (hw : d.wfTimeB = true) :
    (d.timeoutAt tq = .inf ↔
      (d.timeout = none ∨ d.timeout = some .inf)) := by
  rw [ScopeData.timeoutAt]
  simp only [hc, Bool.false_eq_true, if_false]
  rcases wfTimeB_split d hw with ⟨e, t, he, ht, hdl⟩ | ⟨hor, hdl⟩
  · rw [ht, he, hdl]
    cases t with
    | inf => simp [FloatVal.addQ, FloatVal.subQ, FloatVal.le]
    | fin a =>
      simp only [FloatVal.addQ, FloatVal.subQ, FloatVal.le, Option.getD_some]
      by_cases hle : e + a - tq ≤ 0
      · simp [hle]
      · simp [hle]
  · rcases hor with hen | htn
    · rw [hen]
      cases ht : d.timeout with
      | none => simp
      | some t => cases t <;> simp
    · rw [htn]
      simp

theorem minv_eq_inf (a b : FloatVal) :
    FloatVal.minv a b = .inf ↔ (a = .inf ∧ b = .inf) := by
  cases a <;> cases b <;> simp [FloatVal.minv, FloatVal.le] <;> split <;> simp

theorem getD_inf_iff (x : Option FloatVal) :
    x.getD .inf = .inf ↔ (x = none ∨ x = some .inf) := by
  cases x with
  | none => simp
  | some v => cases v <;> simp

theorem chain_step (c : Cfg) (A : Scope)
    (hAc : A.data.cancelled = false) :
    ∃ s2 p2, enterScope c.toScope (some A) c.time = .ok s2 p2 ∧
      s2.data.cancelled = false ∧
      s2.data.entered = some c.time ∧
      s2.data.wfTimeB = true ∧
      s2.data.timeout = (if c.shield = true then c.timeout
        else some (FloatVal.minv (c.timeout.getD .inf)
          (A.data.timeoutAt c.time))) ∧
      s2.data.exc = (if c.exc = none then A.data.exc else c.exc) := by
  set d0 : ScopeData :=
    { label := 0, timeout := c.timeout, shield := c.shield, exc := c.exc,
      entered := none, deadline := none, token := false, cancelled := false,
      onEnter := false, onExit := false }
  have htos : c.toScope = .mk d0 [] := rfl
  have honE : (entryCore d0 [] (some A) c.time).onEnter = false :=
    (entryCore_same d0 [] (some A) c.time).2.2.2.2.1
  have hadd : entryAfterAdd d0 [] (some A) c.time =
      Scope.mk { d0 with entered := some c.time } [] := by
    simp only [entryAfterAdd, hAc, Bool.false_eq_true, if_false]
  rcases enterScope_cases d0 [] (some A) c.time rfl with ⟨e, hc, _⟩ |
    ⟨_, heq⟩
  · rw [honE] at hc
    simp at hc
  · rw [htos]
    refine ⟨_, _, heq, ?_, ?_, ?_, ?_, ?_⟩
    · have h1 := (entryCore_same d0 [] (some A) c.time).2.2.2.2.2.2
      have h2 : (entryAfterAdd d0 [] (some A) c.time).data.cancelled =
          false := by
        rw [hadd]
        simp [Scope.data]
      simp only [Scope.data]
      rw [h1]
      exact h2
    · simpa [Scope.data] using
        (entryCore_same d0 [] (some A) c.time).2.2.1
    · have hE : (entryCore d0 [] (some A) c.time).entered = some c.time :=
        (entryCore_same d0 [] (some A) c.time).2.2.1
      have hT := entryCore_timeout d0 [] A c.time
      simp only [Scope.data]
      rw [ScopeData.wfTimeB]
      cases ht2 : (entryCore d0 [] (some A) c.time).timeout with
      | none =>
        have hdl := entryCore_deadline_none d0 [] (some A) c.time ht2
        simp only [hE, ht2]
        simp [hdl]
      | some t =>
        have hdl := entryCore_deadline d0 [] (some A) c.time t ht2
        simp only [hE, ht2]
        simp [hdl]
    · have hT := entryCore_timeout d0 [] A c.time
      simp only [Scope.data]
      rw [hT]
      exact rfl
    · have hX := entryCore_exc d0 [] A c.time
      simp only [Scope.data]
      rw [hX]
      exact rfl

theorem chain_base (c : Cfg) :
    ∃ s2, enterScope c.toScope none c.time = .ok s2 none ∧
      s2.data.cancelled = false ∧
      s2.data.entered = some c.time ∧
      s2.data.wfTimeB = true ∧
      s2.data.timeout = c.timeout ∧
      s2.data.exc = c.exc := by
  set d0 : ScopeData :=
    { label := 0, timeout := c.timeout, shield := c.shield, exc := c.exc,
      entered := none, deadline := none, token := false, cancelled := false,
      onEnter := false, onExit := false }
  have htos : c.toScope = .mk d0 [] := rfl
  have honE : (entryCore d0 [] none c.time).onEnter = false :=
    (entryCore_same d0 [] none c.time).2.2.2.2.1
  rcases enterScope_cases d0 [] none c.time rfl with ⟨e, hc, _⟩ | ⟨_, heq⟩
  · rw [honE] at hc
    simp at hc
  · rw [htos]
    rw [show reparent none (Scope.mk
        { entryCore d0 [] none c.time with token := true }
        (entryAfterAdd d0 [] none c.time).children) = none from rfl] at heq
    refine ⟨_, heq, ?_, ?_, ?_, ?_, ?_⟩
    · have h1 := (entryCore_same d0 [] none c.time).2.2.2.2.2.2
      simp only [Scope.data]
      rw [h1, show entryAfterAdd d0 [] none c.time =
        Scope.mk { d0 with entered := some c.time } [] from rfl]
      simp [Scope.data]
    · simpa [Scope.data] using (entryCore_same d0 [] none c.time).2.2.1
    · have hE : (entryCore d0 [] none c.time).entered = some c.time :=
        (entryCore_same d0 [] none c.time).2.2.1
      simp only [Scope.data]
      rw [ScopeData.wfTimeB]
      cases ht2 : (entryCore d0 [] none c.time).timeout with
      | none =>
        have hdl := entryCore_deadline_none d0 [] none c.time ht2
        simp only [hE, ht2]
        simp [hdl]
      | some t =>
        have hdl := entryCore_deadline d0 [] none c.time t ht2
        simp only [hE, ht2]
        simp [hdl]
    · simp only [Scope.data]
      rw [entryCore_timeout_none]
    · have hX : (entryCore d0 [] none c.time).exc = d0.exc := by
        obtain ⟨b, hb⟩ := entryAfterAdd_data d0 [] none c.time
        rw [entryCore, hb, (setDeadline_same _).2.2.2.1]
      simp only [Scope.data]
      rw [hX]

theorem noTimeoutChain_snoc (l : List Cfg) (c : Cfg) :
    noTimeoutChain (l.append [c]) =
      (decide (c.timeout = none ∨ c.timeout = some .inf) &&
        (c.shield || noTimeoutChain l)) := by
  rw [noTimeoutChain, noTimeoutChain]
  have hrev : (l.append [c]).reverse = c :: l.reverse := by
    simp
  rw [hrev, effAnc]
  by_cases hs : c.shield = true
  · simp [hs]
  · simp only [hs, Bool.false_eq_true, if_false, List.all_cons]
    simp

theorem specNearestExc_snoc (l : List Cfg) (c : Cfg) :
    specNearestExc (l.append [c]) =
      (if c.exc = none then specNearestExc l else c.exc) := by
  rw [specNearestExc, specNearestExc]
  have hrev : (l.append [c]).reverse = c :: l.reverse := by
    simp
  rw [hrev, List.findSome?]
  cases hx : c.exc with
  | none => simp [hx]
  | some k => simp [hx]

theorem noTimeoutChain_single (c : Cfg) :
    noTimeoutChain [c] =
      decide (c.timeout = none ∨ c.timeout = some .inf) := by
  rw [noTimeoutChain]
  by_cases hs : c.shield = true <;> simp [effAnc, hs]

theorem specNearestExc_single (c : Cfg) :
    specNearestExc [c] = c.exc := by
  rw [specNearestExc]
  cases hx : c.exc with
  | none => simp [List.findSome?, hx]
  | some k => simp [List.findSome?, hx]

theorem chain_invariant :
    ∀ (rest : List Cfg) (A : Scope) (processed : List Cfg),
      A.data.cancelled = false → A.data.wfTimeB = true →
      ((A.data.timeout = none ∨ A.data.timeout = some .inf) ↔
        noTimeoutChain processed = true) →
      A.data.exc = specNearestExc processed →
      ∃ f, enterChain (some A) rest = some f ∧
        f.data.cancelled = false ∧ f.data.wfTimeB = true ∧
        ((f.data.timeout = none ∨ f.data.timeout = some .inf) ↔
          noTimeoutChain (processed.append rest) = true) ∧
        f.data.exc = specNearestExc (processed.append rest) := by
  intro rest
  induction rest with
  | nil =>
    intro A processed h1 h3 h4 h5
    exact ⟨A, by rw [enterChain], h1, h3, by simpa using h4,
      by simpa using h5⟩
  | cons c rest ih =>
    intro A processed h1 h3 h4 h5
    obtain ⟨s2, p2, hok, hc2, he2, hw2, ht2, hx2⟩ := chain_step c A h1
    have h4s : (s2.data.timeout = none ∨ s2.data.timeout = some .inf) ↔
        noTimeoutChain (processed.append [c]) = true := by
      rw [noTimeoutChain_snoc, ht2]
      by_cases hs : c.shield = true
      · simp [hs]
      · simp only [hs, Bool.false_eq_true, if_false]
        constructor
        · intro hor
          rcases hor with hn | hi
          · exact absurd hn (by simp)
          · have := (minv_eq_inf _ _).mp (by injection hi)
            rw [Bool.and_eq_true, Bool.or_eq_true]
            refine ⟨by simp [(getD_inf_iff c.timeout).mp this.1], Or.inr ?_⟩
            exact h4.mp ((timeoutAt_inf_iff A.data c.time h1 h3).mp this.2)
        · intro hb
          rw [Bool.and_eq_true, Bool.or_eq_true] at hb
          rcases hb with ⟨hcd, hrest⟩
          have hct : c.timeout.getD .inf = .inf :=
            (getD_inf_iff c.timeout).mpr (by simpa using hcd)
          have hat : A.data.timeoutAt c.time = .inf := by
            rcases hrest with hf | hnt
            · exact absurd hf (by simp)
            · exact (timeoutAt_inf_iff A.data c.time h1 h3).mpr (h4.mpr hnt)
          right
          rw [(minv_eq_inf _ _).mpr ⟨hct, hat⟩]
    have h5s : s2.data.exc = specNearestExc (processed.append [c]) := by
      rw [specNearestExc_snoc, hx2, h5]
    obtain ⟨f, hf, hfc, hfw, hfi, hfx⟩ :=
      ih s2 (processed.append [c]) hc2 hw2 h4s h5s
    refine ⟨f, ?_, hfc, hfw, ?_, ?_⟩
    · rw [enterChain, hok]
      exact hf
    · simpa [List.append_assoc] using hfi
    · simpa [List.append_assoc] using hfx

theorem chain_full (l : List Cfg) (f : Scope)
    (hchain : enterChain none l = some f) :
    f.data.cancelled = false ∧ f.data.wfTimeB = true ∧
    ((f.data.timeout = none ∨ f.data.timeout = some .inf) ↔
      noTimeoutChain l = true) ∧
    f.data.exc = specNearestExc l := by
  cases l with
  | nil =>
    rw [enterChain] at hchain
    exact absurd hchain (by simp)
  | cons c rest =>
    obtain ⟨s2, hok, hc2, he2, hw2, ht2, hx2⟩ := chain_base c
    have h4s : (s2.data.timeout = none ∨ s2.data.timeout = some .inf) ↔
        noTimeoutChain [c] = true := by
      rw [noTimeoutChain_single, ht2]
      simp
    have h5s : s2.data.exc = specNearestExc [c] := by
      rw [specNearestExc_single, hx2]
    obtain ⟨f2, hf2, hfc, hfw, hfi, hfx⟩ :=
      chain_invariant rest s2 [c] hc2 hw2 h4s h5s
    rw [enterChain, hok] at hchain
    have hchain2 : enterChain (some s2) rest = some f := hchain
    rw [hf2] at hchain2
    injection hchain2 with hchain
    subst hchain
    exact ⟨hfc, hfw, by simpa using hfi, by simpa using hfx⟩

/-- C4, counterexample: a scope entered with no timeout configured
anywhere in its (one-element) effective ancestry chain, then cancelled:
`RemainingTimeout()` returns 0, not +∞, although the chain has no
timeout — refuting the claim's "+∞ iff no timeout exists anywhere in
the effective ancestry chain". -/
theorem C4_counterexample :
    ((enterChain none [⟨none, false, none, 0⟩]).map
      (fun f => (Scope.cancelPublic f).1.data.timeoutAt 1)) =
        some (.fin 0) ∧
    noTimeoutChain [⟨none, false, none, 0⟩] = true := by
  decide

/-- C4 (amended): `RemainingTimeout()` returns exactly 0 iff the scope
is cancelled, or it is entered and the wall clock is at or past its
computed deadline, or it was never entered and its configured timeout is
exactly 0; for an uncancelled scope entered through a nest of scopes, it
is +∞ iff no finite timeout is configured anywhere in the effective
(shield-truncated) ancestry chain; a cancelled scope always reports 0
(never +∞), whatever its chain. -/
theorem C4_lazy_expiry :
    (∀ (d : ScopeData) (now : ℤ), d.wfTimeB = true →
      (d.timeoutAt now = .fin 0 ↔
        (d.cancelled = true ∨
          (∃ dl, d.deadline = some dl ∧ dl.le (.fin now) = true) ∨
          (d.entered = none ∧ d.timeout = some (.fin 0))))) ∧
    (∀ (l : List Cfg) (f : Scope) (tq : ℤ), enterChain none l = some f →
      (f.data.timeoutAt tq = .inf ↔ noTimeoutChain l = true)) ∧
    (∀ (d : ScopeData) (now : ℤ), d.cancelled = true →
      d.timeoutAt now = .fin 0) := by
  refine ⟨?_, ?_, ?_⟩
  · intro d now hw
    by_cases hcd : d.cancelled = true
    · constructor
      · intro _
        exact Or.inl hcd
      · intro _
        rw [ScopeData.timeoutAt]
        simp [hcd]
    · have hcd2 : d.cancelled = false := by simpa using hcd
      rw [ScopeData.timeoutAt]
      simp only [hcd2, Bool.false_eq_true, if_false]
      rcases wfTimeB_split d hw with ⟨e, t, he, ht, hdl⟩ | ⟨hor, hdl⟩
      · simp only [ht, he, hdl, Option.getD_some, hcd2]
        cases t with
        | inf =>
          simp [FloatVal.addQ, FloatVal.subQ, FloatVal.le]
        | fin a =>
          simp only [FloatVal.addQ, FloatVal.subQ, FloatVal.le]
          by_cases hle : e + a - now ≤ 0
          · rw [if_pos (by simpa using hle)]
            constructor
            · intro _
              refine Or.inr (Or.inl ⟨.fin (e + a), rfl, ?_⟩)
              simp only [FloatVal.le, decide_eq_true_eq]
              omega
            · intro _
              rfl
          · rw [if_neg (by simpa using hle)]
            constructor
            · intro hx
              simp only [FloatVal.fin.injEq] at hx
              omega
            · intro hy
              rcases hy with h1 | h2 | h3
              · simp at h1
              · obtain ⟨dl, hdleq, hdle⟩ := h2
                injection hdleq with hdleq
                rw [← hdleq] at hdle
                simp only [FloatVal.le, decide_eq_true_eq] at hdle
                omega
              · simp at h3
      · rcases hor with hen | htn
        · rw [hen]
          cases ht : d.timeout with
          | none => simp [hdl]
          | some t =>
            cases t with
            | inf => simp [hdl]
            | fin a => simp [hdl]
        · rw [htn]
          simp [hdl]
  · intro l f tq hchain
    obtain ⟨hcf, hwf, hiff, _⟩ := chain_full l f hchain
    rw [timeoutAt_inf_iff f.data tq hcf hwf]
    exact hiff
  · intro d now hcd
    rw [ScopeData.timeoutAt]
    simp [hcd]

theorem checkAt_spec (d : ScopeData) (tq : ℤ) :
    (d.checkAt tq = none ↔
      (FloatVal.fin 0).lt (d.timeoutAt tq) = true) ∧
    (d.checkAt tq = none ∨ d.checkAt tq = some (excKindOf d.exc)) := by
  rw [ScopeData.checkAt]
  by_cases hlt : (FloatVal.fin 0).lt (d.timeoutAt tq) = true
  · simp [hlt]
  · rw [if_neg (by simpa using hlt)]
    cases hx : d.exc with
    | none => simp [excKindOf, hlt]
    | some k => simp [excKindOf, hlt]

/-- The spec's scenario S4, run in the model: scope A with configured
exception kind 7 is entered at instant 0; child B with no configured
kind is entered under it at instant 1; `A.Cancel()` sweeps B; the final
state of B is the first (only) child in A's heap view, and `B.Check()`
at instant 2 reports the raised exception. -/
def scenarioS4 : Option Exc :=
  match enterScope (CancelScope.new 10 none false (some 7) false false)
      none 0 with
  | .ok a1 _ =>
    match enterScope (CancelScope.new 11 none false none false false)
        (some a1) 1 with
    | .ok _ (some a2) =>
      match nodeAt (Scope.cancelPublic a2).1 [0] with
      | some b2 => b2.data.checkAt 2
      | none => none
    | _ => none
  | _ => none

/-- C7: a scope entered through a nest of scopes carries, as its `_exc`,
the nearest configured exception kind found walking from the scope
toward the root (inherited at entry); `Check()` either returns normally
(exactly when the remaining timeout is positive) or raises that nearest
configured kind — the default `CancelledError` when none is configured
anywhere in the chain.  In particular (scenario S4), after `A.Cancel()`
with A configured with kind 7 and child B unconfigured, `B.Check()`
raises kind 7. -/
theorem C7_exception_inheritance :
    (∀ l f tq, enterChain none l = some f →
      f.data.exc = specNearestExc l ∧
      (f.data.checkAt tq = none ∨
        f.data.checkAt tq = some (excKindOf (specNearestExc l))) ∧
      (f.data.checkAt tq = none ↔
        (FloatVal.fin 0).lt (f.data.timeoutAt tq) = true)) ∧
    scenarioS4 = some (Exc.custom 7) := by
  constructor
  · intro l f tq hchain
    obtain ⟨_, _, _, hx⟩ := chain_full l f hchain
    refine ⟨hx, ?_, (checkAt_spec f.data tq).1⟩
    rcases (checkAt_spec f.data tq).2 with h | h
    · exact Or.inl h
    · right
      rw [h, hx]
  · decide
